import Mathlib

/-!
Shallow embedding of `ALifeSim/LocalSearchSolver.py`: the `RulesetState`
state class, the `HillClimber` driver and the `GASearcher` driver.

Modelling conventions, uniform through the file:
* A Python string of rule symbols is a `List Char`.
* Numeric fitness values (Python ints/floats) are `ℚ`.
* `RulesetState.evalFunction` and `RulesetState.maxValue` are copied
  unchanged into every state the code constructs, so all states of one run
  share them; they are modelled as explicit parameters `eval : List Char → ℚ`
  and `maxV : ℚ` of the operations instead of record fields.
* Each call to `random.randrange` / `random.choice` / `random.randint` is
  modelled as reading one value of a supply `ns : ℕ → ℕ` at a running index
  and reducing it modulo the size of the requested range; each call to
  `random.random()` reads one value of a supply `qs : ℕ → ℚ` (a draw from
  `[0,1)`).
* A Python run-time error (IndexError, TypeError, `random.choice` on a
  non-list, `random.randrange(0)`) is modelled as `Option.none`.
-/

namespace LocalSearchSolver

/-- Class constant `RulesetState.RULE_LEN` (line 24 of the source). -/
def RULE_LEN : ℕ := 27

/-- The four symbols `randomRuleset` draws from (its `options = "sflr"`). -/
def sflr : List Char := ['s', 'f', 'l', 'r']

/-- The five symbols `_otherSymbols` knows about, including the
"arbitrary" symbol `a` that `randomRuleset` leaves out. -/
def alphabetAll : List Char := ['a', 's', 'f', 'l', 'r']

/-- A `RulesetState` object: its `ruleString` and its memoized
`stateValue` cache (`None` until `getValue` runs). -/
structure RulesetState where
  ruleString : List Char
  stateValue : Option ℚ
deriving DecidableEq, Repr

/-- `RulesetState.getValue` (lines 37–41): memoizes `evalFunction(ruleString)`
into `stateValue`; returns the value together with the updated object. -/
def getValue (eval : List Char → ℚ) (s : RulesetState) : ℚ × RulesetState :=
  match s.stateValue with
  | some v => (v, s)
  | none => (eval s.ruleString, { s with stateValue := some (eval s.ruleString) })

/-- `RulesetState._otherSymbols` (lines 59–72): the other symbols besides
the given one. An unknown symbol falls through to `return None`
(after a debug print); modelled as the empty list, on which the caller's
`random.choice` then fails. -/
def otherSymbols (sym : Char) : List Char :=
  if sym = 'a' then ['s', 'f', 'l', 'r']
  else if sym = 's' then ['a', 'f', 'l', 'r']
  else if sym = 'f' then ['a', 's', 'l', 'r']
  else if sym = 'l' then ['a', 's', 'f', 'r']
  else if sym = 'r' then ['a', 's', 'f', 'l']
  else []

/-- Rule strings produced by the loop of `RulesetState.allNeighbors`
(lines 47–57): position-major over the suffix `l`, and for each position the
substitutions run in `_otherSymbols` order. `pre` is the already-scanned
prefix of the rule string. -/
def allNeighborRules (pre : List Char) : List Char → List (List Char)
  | [] => []
  | c :: rest =>
      ((otherSymbols c).map fun d => pre ++ d :: rest)
        ++ allNeighborRules (pre ++ [c]) rest

/-- `RulesetState.allNeighbors` (lines 47–57): every one-symbol change of
`ruleString`, each wrapped in a fresh state (cache empty). -/
def allNeighbors (s : RulesetState) : List RulesetState :=
  (allNeighborRules [] s.ruleString).map fun r => ⟨r, none⟩

/-- `RulesetState.makeRandomMove` (lines 82–91): draw a position
(`random.randrange(len)`, failing on an empty string), draw one of the
other symbols at that position (`random.choice`, failing when
`_otherSymbols` returned `None`), and build a fresh state with that single
substitution. `r1` and `r2` are the two raw random draws. -/
def makeRandomMoveR (r1 r2 : ℕ) (s : RulesetState) : Option RulesetState :=
  if s.ruleString.length = 0 then none
  else
    let i := r1 % s.ruleString.length
    match s.ruleString[i]? with
    | none => none
    | some old =>
        let opts := otherSymbols old
        match opts[r2 % opts.length]? with
        | none => none
        | some c =>
            some ⟨s.ruleString.take i ++ c :: s.ruleString.drop (i + 1), none⟩

/-- `RulesetState.randomNeighbors` (lines 74–80): `num` independent random
moves from `s`, collected in order; threads the random-supply index. -/
def randomNeighborsR (ns : ℕ → ℕ) (s : RulesetState) :
    ℕ → ℕ → Option (List RulesetState × ℕ)
  | idx, 0 => some ([], idx)
  | idx, n + 1 =>
      match makeRandomMoveR (ns idx) (ns (idx + 1)) s with
      | none => none
      | some t =>
          match randomNeighborsR ns s (idx + 2) n with
          | none => none
          | some (rest, idx') => some (t :: rest, idx')

/-- `RulesetState.randomRuleset` (lines 103–109): `RULE_LEN` independent
`random.choice("sflr")` draws, at supply indices `idx, idx+1, …`. -/
def randomRuleset (ns : ℕ → ℕ) (idx : ℕ) : List Char :=
  (List.range RULE_LEN).map fun k =>
    sflr.get ⟨ns (idx + k) % sflr.length, Nat.mod_lt _ (by simp [sflr])⟩

/-- `RulesetState.getRandomStates` (lines 93–101): builds the internal list
`newStates` of `n` fresh random states but then executes `return newState`,
the loop variable — i.e. it hands back only the last state built (and
raises NameError when `n = 0`, modelled as `none`). Each `randomRuleset`
call consumes `RULE_LEN` draws. -/
def getRandomStates (ns : ℕ → ℕ) (idx n : ℕ) : Option RulesetState :=
  let newStates : List RulesetState :=
    (List.range n).map fun k => ⟨randomRuleset ns (idx + RULE_LEN * k), none⟩
  newStates.getLast?

/-- `RulesetState.copyState` (lines 134–137): a fresh state with the same
rule string (cache starts empty again). -/
def copyState (s : RulesetState) : RulesetState :=
  ⟨s.ruleString, none⟩

/-- Body of `RulesetState.crossover` (lines 111–132) once the crossover
point `p` has been drawn: if `p` is `0` or `RULE_LEN`, return copies of the
two parents; otherwise splice `self[:p] + other[p:]` and
`other[:p] + self[p:]` into two fresh states. -/
def crossoverAt (p : ℕ) (s other : RulesetState) : RulesetState × RulesetState :=
  if p = 0 ∨ p = RULE_LEN then
    (copyState s, copyState other)
  else
    (⟨s.ruleString.take p ++ other.ruleString.drop p, none⟩,
     ⟨other.ruleString.take p ++ s.ruleString.drop p, none⟩)

/-- `RulesetState.crossover` (lines 111–132): the crossover point comes
from `random.randint(0, RULE_LEN)`, i.e. one draw reduced modulo
`RULE_LEN + 1`. -/
def crossoverR (ns : ℕ → ℕ) (ni : ℕ) (s other : RulesetState) :
    (RulesetState × RulesetState) × ℕ :=
  (crossoverAt (ns ni % (RULE_LEN + 1)) s other, ni + 1)

/-- Number of positions at which two rule strings disagree (compared
pointwise up to the shorter length). -/
def diffCount (a b : List Char) : ℕ :=
  (List.zip a b).countP fun p => p.1 != p.2

/-- The status strings the drivers return: `'optimal'`, `'keep going'`,
`'local maxima'`. -/
inductive Status where
  | optimal
  | keepGoing
  | localMaxima
deriving DecidableEq, Repr

/-- The mutable attributes of a `HillClimber` object (lines 151–162).
`startState` is stored but never read after construction and is omitted;
`maxValue` is `startState.getMaxValue()`. -/
structure HC where
  currState : RulesetState
  currValue : ℚ
  maxValue : ℚ
  count : ℕ
  maxRounds : ℕ
deriving DecidableEq, Repr

/-- `HillClimber.__init__` (lines 154–164): stores the start state as the
current state and eagerly computes its value (memoizing it into the
object), with `count = 0`. -/
def hillClimberInit (eval : List Char → ℚ) (maxV : ℚ) (startState : RulesetState)
    (maxRounds : ℕ) : HC :=
  let p := getValue eval startState
  ⟨p.2, p.1, maxV, 0, maxRounds⟩

/-- Loop of `HillClimber.findBestNeighbor` (lines 231–237): scan the
remaining neighbors, keeping the list of all neighbors tied at the best
value seen so far (each neighbor's value is computed — and memoized — as it
is scanned). -/
def fbnLoop (eval : List Char → ℚ) :
    List RulesetState → ℚ → List RulesetState → List RulesetState × ℚ
  | bestNeighs, bestValue, [] => (bestNeighs, bestValue)
  | bestNeighs, bestValue, n :: rest =>
      let p := getValue eval n
      if p.1 > bestValue then fbnLoop eval [p.2] p.1 rest
      else if p.1 = bestValue then fbnLoop eval (bestNeighs ++ [p.2]) bestValue rest
      else fbnLoop eval bestNeighs bestValue rest

/-- `HillClimber.findBestNeighbor` (lines 223–239): fails on an empty
neighbor list (`neighbors[0]`); otherwise returns a `random.choice` among
the neighbors tied at the best value, `tie` being the raw draw. -/
def findBestNeighborR (eval : List Char → ℚ) (tie : ℕ) :
    List RulesetState → Option RulesetState
  | [] => none
  | n0 :: rest =>
      let p0 := getValue eval n0
      let best := fbnLoop eval [p0.2] p0.1 rest
      best.1[tie % best.1.length]?

/-- `HillClimber.step` (lines 199–220): bump the count, sample 8 random
neighbors, move to the best of them unconditionally, then decide the
status. The source assigns `self.currValue = nextValue` *before* testing
`nextValue >= self.currValue`, so that test reads the freshly assigned
value; the comparison is reproduced here exactly as written. -/
def stepR (eval : List Char → ℚ) (ns : ℕ → ℕ) (idx : ℕ) (hc : HC) :
    Option (Status × HC × ℕ) :=
  let count' := hc.count + 1
  match randomNeighborsR ns hc.currState idx 8 with
  | none => none
  | some (neighs, idx') =>
      match findBestNeighborR eval (ns idx') neighs with
      | none => none
      | some bestNeigh =>
          let p := getValue eval bestNeigh
          let nextValue := p.1
          let hc' : HC := { hc with currState := p.2, currValue := nextValue,
                                    count := count' }
          if nextValue = hc.maxValue then some (.optimal, hc', idx' + 1)
          else if nextValue ≥ hc'.currValue then some (.keepGoing, hc', idx' + 1)
          else some (.localMaxima, hc', idx' + 1)

/-- The `while` loop of `HillClimber.run` (lines 182–188), with explicit
fuel: loop while `currValue < maxValue and count < maxRounds`, breaking
when a step reports `optimal` or `local maxima`. Each iteration raises
`count` by one and the guard requires `count < maxRounds`, so fuel
`maxRounds - count` never runs out before the guard stops the loop. -/
def runAux (eval : List Char → ℚ) (ns : ℕ → ℕ) :
    ℕ → ℕ → HC → Option (HC × ℕ)
  | 0, idx, hc => some (hc, idx)
  | fuel + 1, idx, hc =>
      if hc.currValue < hc.maxValue ∧ hc.count < hc.maxRounds then
        match stepR eval ns idx hc with
        | none => none
        | some (status, hc', idx') =>
            if status = Status.optimal ∨ status = Status.localMaxima then
              some (hc', idx')
            else runAux eval ns fuel idx' hc'
      else some (hc, idx)

/-- `HillClimber.run` (lines 179–196): run the loop and return
`(currValue, maxValue, count)`. -/
def runR (eval : List Char → ℚ) (ns : ℕ → ℕ) (idx : ℕ) (hc : HC) :
    Option (ℚ × ℚ × ℕ) :=
  match runAux eval ns (hc.maxRounds - hc.count) idx hc with
  | none => none
  | some (hc', _) => some (hc'.currValue, hc'.maxValue, hc'.count)

/-- Scan loop of `GASearcher.rouletteSelect` (lines 380–384): running sum
`s`, return the first index whose running sum reaches `pick`. Falling off
the end reaches line 385, whose `print("..." + len(valueList) - 1)` raises
TypeError before the final `return`; modelled as `none`. -/
def rouletteLoop (pick : ℚ) : ℚ → ℕ → List ℚ → Option ℕ
  | _, _, [] => none
  | s, i, v :: rest =>
      let s' := s + v
      if s' ≥ pick then some i else rouletteLoop pick s' (i + 1) rest

/-- `GASearcher.rouletteSelect` (lines 371–386): `pick` is
`random.random() * sum(valueList)`, with `r` the raw `[0,1)` draw. -/
def rouletteSelect (r : ℚ) (valueList : List ℚ) : Option ℕ :=
  rouletteLoop (r * valueList.sum) 0 0 valueList

/-- The mutable attributes of a `GASearcher` object (lines 244–261).
The source initializes `self.best = 0`, an integer placeholder later
overwritten with a state; modelled as `none`. `maxFit` is
`currStates[0].getMaxValue()`, i.e. the shared `maxValue`. -/
structure GA where
  currStates : List RulesetState
  best : Option RulesetState
  count : ℕ
  maxGenerations : ℕ
  crossPerc : ℚ
  mutePerc : ℚ
  maxFit : ℚ
deriving DecidableEq, Repr

/-- Population-seeding loop of `GASearcher.__init__` (lines 255–259): each
iteration appends `nextState.copyState()` to the population and then
assigns `nextState.ruleString = nextState.randomRuleset()`, overwriting the
shared prototype's rule string in place (its `stateValue` cache is left
as it was). Returns the population, the prototype as the loop leaves it,
and the advanced supply index. -/
def gaInitLoop (ns : ℕ → ℕ) : ℕ → RulesetState → ℕ → List RulesetState × RulesetState × ℕ
  | idx, gen, 0 => ([], gen, idx)
  | idx, gen, n + 1 =>
      let newState := copyState gen
      let gen' : RulesetState := { gen with ruleString := randomRuleset ns idx }
      let r := gaInitLoop ns (idx + RULE_LEN) gen' n
      (newState :: r.1, r.2.1, r.2.2)

/-- `GASearcher.__init__` (lines 244–261): an odd population size is
bumped to the next even number, then the seeding loop runs; a population
size of zero makes `self.currStates[0].getMaxValue()` fail (`none`). -/
def gaInit (ns : ℕ → ℕ) (idx : ℕ) (gen : RulesetState) (popSize maxGenerations : ℕ)
    (crossPerc mutePerc maxV : ℚ) : Option (GA × RulesetState × ℕ) :=
  let ps := if popSize % 2 = 1 then popSize + 1 else popSize
  let r := gaInitLoop ns idx gen ps
  match r.1 with
  | [] => none
  | _ :: _ =>
      some (⟨r.1, none, 0, maxGenerations, crossPerc, mutePerc, maxV⟩, r.2.1, r.2.2)

/-- Loop of `GASearcher.selectParents` (lines 329–339): one roulette draw
per slot (one `random.random()` each), indexing the given states. `k`
counts the remaining slots. -/
def selectLoop (qs : ℕ → ℚ) (fits : List ℚ) (states : List RulesetState) :
    ℕ → ℕ → Option (List RulesetState × ℕ)
  | qi, 0 => some ([], qi)
  | qi, k + 1 =>
      match rouletteSelect (qs qi) fits with
      | none => none
      | some pos =>
          match states[pos]? with
          | none => none
          | some parent =>
              match selectLoop qs fits states (qi + 1) k with
              | none => none
              | some (rest, qi') => some (parent :: rest, qi')

/-- `GASearcher.selectParents` (lines 329–339): build a parent pool of the
same size as `states`. -/
def selectParentsR (qs : ℕ → ℚ) (qi : ℕ) (states : List RulesetState)
    (fits : List ℚ) : Option (List RulesetState × ℕ) :=
  selectLoop qs fits states qi states.length

/-- Pairing loop of `GASearcher.mateParents` (lines 344–362): parents two
at a time; with probability `crossoverPerc` cross them (one
`random.random()` draw plus the crossover-point draw), otherwise copy them
both. An odd pool makes `parents[i + 1]` fail. -/
def mateCrossLoop (qs : ℕ → ℚ) (ns : ℕ → ℕ) (crossoverPerc : ℚ) :
    ℕ → ℕ → List RulesetState → Option (List RulesetState × ℕ × ℕ)
  | qi, ni, [] => some ([], qi, ni)
  | _, _, [_] => none
  | qi, ni, p1 :: p2 :: rest =>
      let doCross := qs qi
      if doCross < crossoverPerc then
        let c := crossoverR ns ni p1 p2
        match mateCrossLoop qs ns crossoverPerc (qi + 1) c.2 rest with
        | none => none
        | some (pop, qi', ni') => some (c.1.1 :: c.1.2 :: pop, qi', ni')
      else
        match mateCrossLoop qs ns crossoverPerc (qi + 1) ni rest with
        | none => none
        | some (pop, qi', ni') => some (copyState p1 :: copyState p2 :: pop, qi', ni')

/-- Mutation loop of `GASearcher.mateParents` (lines 364–368): for each
member one `random.random()` draw; with probability `mutationPerc` replace
it by `makeRandomMove()` (two more integer draws). -/
def muteLoop (qs : ℕ → ℚ) (ns : ℕ → ℕ) (mutationPerc : ℚ) :
    ℕ → ℕ → List RulesetState → Option (List RulesetState × ℕ × ℕ)
  | qi, ni, [] => some ([], qi, ni)
  | qi, ni, x :: rest =>
      let doMutate := qs qi
      if doMutate ≤ mutationPerc then
        match makeRandomMoveR (ns ni) (ns (ni + 1)) x with
        | none => none
        | some t =>
            match muteLoop qs ns mutationPerc (qi + 1) (ni + 2) rest with
            | none => none
            | some (pop, qi', ni') => some (t :: pop, qi', ni')
      else
        match muteLoop qs ns mutationPerc (qi + 1) ni rest with
        | none => none
        | some (pop, qi', ni') => some (x :: pop, qi', ni')

/-- `GASearcher.mateParents` (lines 341–369): crossover pass followed by
the mutation pass over the new population. -/
def mateParentsR (qs : ℕ → ℚ) (ns : ℕ → ℕ) (crossoverPerc mutationPerc : ℚ)
    (qi ni : ℕ) (parents : List RulesetState) :
    Option (List RulesetState × ℕ × ℕ) :=
  match mateCrossLoop qs ns crossoverPerc qi ni parents with
  | none => none
  | some (newPop, qi', ni') => muteLoop qs ns mutationPerc qi' ni' newPop

/-- `GASearcher.step` (lines 284–325). `overallBest` is bound to
`self.currStates[0]` before anything else (failing on an empty
population); that object is aliased by the fitness comprehension below, so
its memoized form `(getValue eval ob).2` is used. The comprehension
`[state.getValue() for state in self.currStates]` memoizes every member in
place, giving `memo` and `fits`; `self.currStates` keeps those same
objects. If the count has passed `maxGenerations` the method returns
`'local maxima'` before looking at fitnesses; if some fitness equals
`maxFit`, `fits.index` finds its first position and that member becomes
`self.best` with status `'optimal'`, touching neither the population nor
the random supplies; otherwise selection, mating and the best-tracking
update run and the count is bumped. -/
def gaStepR (eval : List Char → ℚ) (qs : ℕ → ℚ) (ns : ℕ → ℕ) (qi ni : ℕ)
    (ga : GA) : Option (Status × GA × ℕ × ℕ) :=
  match ga.currStates with
  | [] => none
  | ob :: obRest =>
      if ga.count > ga.maxGenerations then some (.localMaxima, ga, qi, ni)
      else
        let overallBest := (getValue eval ob).2
        let memo := ga.currStates.map fun s => (getValue eval s).2
        let fits := ga.currStates.map fun s => (getValue eval s).1
        if ga.maxFit ∈ fits then
          let pos := fits.indexOf ga.maxFit
          match memo[pos]? with
          | none => none
          | some b =>
              some (.optimal, { ga with currStates := memo, best := some b }, qi, ni)
        else
          let m := (obRest.map fun s => (getValue eval s).1).foldl max
            (getValue eval ob).1
          let bestLoc := fits.indexOf m
          match memo[bestLoc]? with
          | none => none
          | some bestOne =>
              match selectParentsR qs qi memo fits with
              | none => none
              | some (parentPool, qi') =>
                  match mateParentsR qs ns ga.crossPerc ga.mutePerc qi' ni
                      parentPool with
                  | none => none
                  | some (newPop, qi'', ni'') =>
                      let overallBest' :=
                        if (getValue eval bestOne).1 > (getValue eval overallBest).1
                        then bestOne else overallBest
                      some (.keepGoing,
                        { ga with currStates := newPop, best := some overallBest',
                                  count := ga.count + 1 }, qi'', ni'')

/-- Evaluation fixture for concrete runs: the string `"s"` scores 5, every
other string scores 3. -/
def c1Eval : List Char → ℚ := fun r => if r = ['s'] then 5 else 3

/-- An all-zeros integer random supply. -/
def zeroSupply : ℕ → ℕ := fun _ => 0

/-- An all-ones integer random supply. -/
def oneSupply : ℕ → ℕ := fun _ => 1

/-- An all-zeros rational random supply (each `random.random()` draw 0). -/
def qZeroSupply : ℕ → ℚ := fun _ => 0

/-- A `GASearcher` whose single member is optimal (fitness 5 = `maxFit`)
but whose generation count (1) has passed `maxGenerations` (0). -/
def gaPastCap : GA := ⟨[⟨['s'], none⟩], none, 1, 0, 0, 0, 5⟩

/-- A fresh `GASearcher` (count 0 of 20) whose single member is optimal
under `c1Eval` (fitness 5 = `maxFit`). -/
def gaOpt : GA := ⟨[⟨['s'], none⟩], none, 0, 20, 0, 0, 5⟩

/-- Evaluation fixture scoring every string 0. -/
def zeroEval : List Char → ℚ := fun _ => 0

/-- Well-formedness of a state for the random-move operators: a nonempty
rule string over the five symbols `_otherSymbols` handles. Preserved by
every state-producing operation of the code. -/
def WF (s : RulesetState) : Prop :=
  0 < s.ruleString.length ∧ ∀ c ∈ s.ruleString, c ∈ alphabetAll

instance (s : RulesetState) : Decidable (WF s) :=
  inferInstanceAs (Decidable (_ ∧ _))

theorem diffCount_self (x : List Char) : diffCount x x = 0 := by
  induction x with
  | nil => rfl
  | cons c rest ih =>
      simp only [diffCount, List.zip_cons_cons, List.countP_cons] at *
      simp [ih]

theorem diffCount_splice {c d : Char} (x y : List Char) (h : c ≠ d) :
    diffCount (x ++ c :: y) (x ++ d :: y) = 1 := by
  induction x with
  | nil =>
      simp only [List.nil_append, diffCount, List.zip_cons_cons, List.countP_cons]
      have h0 : diffCount y y = 0 := diffCount_self y
      simp only [diffCount] at h0
      simp [h0, h]
  | cons a rest ih =>
      simp only [diffCount, List.cons_append, List.zip_cons_cons,
        List.countP_cons] at *
      simp [ih]

theorem otherSymbols_length_of_mem (c : Char) (hc : c ∈ alphabetAll) :
    (otherSymbols c).length = 4 := by
  fin_cases hc <;> decide

theorem otherSymbols_nodup_of_mem (c : Char) (hc : c ∈ alphabetAll) :
    (otherSymbols c).Nodup := by
  fin_cases hc <;> decide

theorem not_self_mem_otherSymbols (c : Char) (hc : c ∈ alphabetAll) :
    c ∉ otherSymbols c := by
  fin_cases hc <;> decide

theorem otherSymbols_mem_alphabet (c : Char) (hc : c ∈ alphabetAll)
    {d : Char} (hd : d ∈ otherSymbols c) : d ∈ alphabetAll := by
  fin_cases hc <;> simp [otherSymbols] at hd <;>
    rcases hd with rfl | rfl | rfl | rfl <;> decide

theorem sflr_subset_alphabet (c : Char) (hc : c ∈ sflr) : c ∈ alphabetAll := by
  fin_cases hc <;> decide

theorem mem_allNeighborRules {r : List Char} :
    ∀ {l pre : List Char}, r ∈ allNeighborRules pre l →
      ∃ i, ∃ h : i < l.length, ∃ d, d ∈ otherSymbols (l.get ⟨i, h⟩) ∧
        r = pre ++ (l.take i ++ d :: l.drop (i + 1)) := by
  intro l
  induction l with
  | nil => intro pre hr; simp [allNeighborRules] at hr
  | cons c rest ih =>
      intro pre hr
      simp only [allNeighborRules, List.mem_append, List.mem_map] at hr
      rcases hr with ⟨d, hd, rfl⟩ | hr
      · exact ⟨0, by simp, d, hd, by simp⟩
      · obtain ⟨i, h, d, hd, rfl⟩ := ih hr
        refine ⟨i + 1, by simpa using h, d, hd, ?_⟩
        simp [List.append_assoc]

theorem length_allNeighborRules :
    ∀ (l pre : List Char), (∀ c ∈ l, c ∈ alphabetAll) →
      (allNeighborRules pre l).length = l.length * 4 := by
  intro l
  induction l with
  | nil => intro pre _; simp [allNeighborRules]
  | cons c rest ih =>
      intro pre hl
      have hc : c ∈ alphabetAll := hl c (by simp)
      have hrest : ∀ x ∈ rest, x ∈ alphabetAll := fun x hx => hl x (by simp [hx])
      simp only [allNeighborRules, List.length_append, List.length_map,
        ih (pre ++ [c]) hrest, otherSymbols_length_of_mem c hc,
        List.length_cons]
      ring

theorem nodup_allNeighborRules :
    ∀ (l pre : List Char), (∀ c ∈ l, c ∈ alphabetAll) →
      (allNeighborRules pre l).Nodup := by
  intro l
  induction l with
  | nil => intro pre _; simp [allNeighborRules]
  | cons c rest ih =>
      intro pre hl
      have hc : c ∈ alphabetAll := hl c (by simp)
      have hrest : ∀ x ∈ rest, x ∈ alphabetAll := fun x hx => hl x (by simp [hx])
      refine List.Nodup.append ?_ (ih (pre ++ [c]) hrest) ?_
      · refine (otherSymbols_nodup_of_mem c hc).map ?_
        intro d d' hdd'
        have := List.append_cancel_left hdd'
        exact (List.cons.injEq _ _ _ _).mp this |>.1
      · intro r hrA hrB
        simp only [List.mem_map] at hrA
        obtain ⟨d, hd, rfl⟩ := hrA
        obtain ⟨i, h, d', _, heq⟩ := mem_allNeighborRules hrB
        rw [List.append_assoc] at heq
        have := List.append_cancel_left heq
        have hdc : d = c := ((List.cons.injEq _ _ _ _).mp this).1
        exact not_self_mem_otherSymbols c hc (hdc ▸ hd)

theorem splice_diff_facts {l : List Char} {i : ℕ} (h : i < l.length)
    {d : Char} (hd : d ≠ l.get ⟨i, h⟩) :
    (l.take i ++ d :: l.drop (i + 1)).length = l.length ∧
      diffCount l (l.take i ++ d :: l.drop (i + 1)) = 1 := by
  have hsplit : l = l.take i ++ l.get ⟨i, h⟩ :: l.drop (i + 1) := by
    conv_lhs => rw [← List.take_append_drop i l]
    rw [List.drop_eq_getElem_cons h]
    rfl
  constructor
  · simp [List.length_take, List.length_drop]
    omega
  · nth_rewrite 1 [hsplit]
    exact diffCount_splice _ _ (Ne.symm hd)

/-- C2, counterexample: for the length-1 encoding `"s"` over `{s,f,l,r}`
(alphabet size `A = 4`), `allNeighbors()` does not return `L × (A − 1) = 3`
states — `_otherSymbols` also offers the symbol `a`, so there are 4. -/
theorem allNeighbors_count_not_three_per_position :
    (allNeighbors ⟨['s'], none⟩).length ≠ 1 * (4 - 1) := by decide

/-- C2, amended: for every encoding of length `L` over `{s, f, l, r}`,
`allNeighbors()` returns exactly `L × 4` states (the substitution alphabet
of `_otherSymbols` is `{a, s, f, l, r}`, of size 5), each differing from
the source encoding in exactly one position, and no two returned neighbors
coincide (in particular no two agree in both the changed position and the
resulting symbol). -/
theorem allNeighbors_four_per_position_distinct (s : RulesetState)
    (hs : ∀ c ∈ s.ruleString, c ∈ sflr) :
    (allNeighbors s).length = s.ruleString.length * 4 ∧
      (∀ t ∈ allNeighbors s, t.ruleString.length = s.ruleString.length ∧
        diffCount s.ruleString t.ruleString = 1) ∧
      ((allNeighbors s).map RulesetState.ruleString).Nodup := by
  have hall : ∀ c ∈ s.ruleString, c ∈ alphabetAll :=
    fun c hc => sflr_subset_alphabet c (hs c hc)
  refine ⟨?_, ?_, ?_⟩
  · simp [allNeighbors, length_allNeighborRules _ [] hall]
  · intro t ht
    simp only [allNeighbors, List.mem_map] at ht
    obtain ⟨r, hr, rfl⟩ := ht
    obtain ⟨i, h, d, hd, rfl⟩ := mem_allNeighborRules hr
    have hget : s.ruleString.get ⟨i, h⟩ ∈ alphabetAll :=
      hall _ (s.ruleString.get_mem _ h)
    have hne : d ≠ s.ruleString.get ⟨i, h⟩ := by
      intro he; exact not_self_mem_otherSymbols _ hget (he ▸ hd)
    have hf := splice_diff_facts h hne
    simpa using hf
  · have hmm : (allNeighbors s).map RulesetState.ruleString
        = allNeighborRules [] s.ruleString := by
      simp only [allNeighbors, List.map_map]
      exact List.map_id'' (fun _ => rfl) _
    rw [hmm]
    exact nodup_allNeighborRules _ [] hall

/-- C2, witness: the amended theorem evaluated on the encoding `"sf"`. -/
theorem allNeighbors_four_per_position_distinct_witness :
    (∀ c ∈ (⟨['s', 'f'], none⟩ : RulesetState).ruleString, c ∈ sflr) ∧
      (allNeighbors ⟨['s', 'f'], none⟩).length = 2 * 4 := by
  refine ⟨by decide, ?_⟩
  have h := allNeighbors_four_per_position_distinct ⟨['s', 'f'], none⟩ (by decide)
  simpa using h.1

theorem makeRandomMove_spec (r1 r2 : ℕ) (s : RulesetState)
    (h0 : 0 < s.ruleString.length)
    (hall : ∀ c ∈ s.ruleString, c ∈ alphabetAll) :
    ∃ t, makeRandomMoveR r1 r2 s = some t ∧
      t.ruleString.length = s.ruleString.length ∧
      diffCount s.ruleString t.ruleString = 1 ∧
      (∀ c ∈ t.ruleString, c ∈ alphabetAll) ∧
      t.stateValue = none := by
  have hif : ¬s.ruleString.length = 0 := by omega
  have hi : r1 % s.ruleString.length < s.ruleString.length := Nat.mod_lt _ h0
  unfold makeRandomMoveR
  rw [if_neg hif]
  dsimp only
  rw [List.getElem?_eq_getElem hi]
  dsimp only
  have holdmem : s.ruleString[r1 % s.ruleString.length] ∈ s.ruleString :=
    List.getElem_mem hi
  have holdall := hall _ holdmem
  have hopts : (otherSymbols s.ruleString[r1 % s.ruleString.length]).length = 4 :=
    otherSymbols_length_of_mem _ holdall
  have hj : r2 % (otherSymbols s.ruleString[r1 % s.ruleString.length]).length
      < (otherSymbols s.ruleString[r1 % s.ruleString.length]).length := by
    rw [hopts]; exact Nat.mod_lt _ (by norm_num)
  rw [List.getElem?_eq_getElem hj]
  dsimp only
  have hcmem := List.getElem_mem hj
  have hcne : (otherSymbols s.ruleString[r1 % s.ruleString.length])[r2 %
      (otherSymbols s.ruleString[r1 % s.ruleString.length]).length]
      ≠ s.ruleString.get ⟨r1 % s.ruleString.length, hi⟩ := by
    intro he
    rw [List.get_eq_getElem] at he
    apply not_self_mem_otherSymbols _ holdall
    nth_rewrite 2 [← he]
    exact hcmem
  have hf := splice_diff_facts hi hcne
  refine ⟨_, rfl, hf.1, hf.2, ?_, rfl⟩
  intro c hc
  rcases List.mem_append.mp hc with hc | hc
  · exact hall c (List.take_subset _ _ hc)
  · rcases List.mem_cons.mp hc with rfl | hc
    · exact otherSymbols_mem_alphabet _ holdall hcmem
    · exact hall c (List.drop_subset _ _ hc)

/-- C7: `makeRandomMove` (the single-symbol mutation) on any state with a
nonempty encoding over `{s, f, l, r}` succeeds and returns a state whose
encoding has the same length and differs from the source in exactly one
position (so the symbol written there differs from the one replaced). -/
theorem makeRandomMove_single_change (r1 r2 : ℕ) (s : RulesetState)
    (h0 : 0 < s.ruleString.length) (hs : ∀ c ∈ s.ruleString, c ∈ sflr) :
    ∃ t, makeRandomMoveR r1 r2 s = some t ∧
      t.ruleString.length = s.ruleString.length ∧
      diffCount s.ruleString t.ruleString = 1 := by
  obtain ⟨t, h1, h2, h3, -, -⟩ := makeRandomMove_spec r1 r2 s h0
    (fun c hc => sflr_subset_alphabet c (hs c hc))
  exact ⟨t, h1, h2, h3⟩

/-- C7, witness: the mutation theorem evaluated on the encoding `"sf"`
with raw draws 1 and 2. -/
theorem makeRandomMove_single_change_witness :
    0 < (⟨['s', 'f'], none⟩ : RulesetState).ruleString.length ∧
      ∃ t, makeRandomMoveR 1 2 ⟨['s', 'f'], none⟩ = some t ∧
        t.ruleString.length = (⟨['s', 'f'], none⟩ : RulesetState).ruleString.length ∧
        diffCount (⟨['s', 'f'], none⟩ : RulesetState).ruleString t.ruleString = 1 :=
  ⟨by decide, makeRandomMove_single_change 1 2 ⟨['s', 'f'], none⟩ (by decide) (by decide)⟩

/-- C5, counterexample: two parents of length `L = 28` and the crossover
point `p = 27`, strictly between `0` and `L`: the source compares the point
against the class constant `RULE_LEN = 27` rather than the encodings'
length, takes the degenerate branch, and returns a copy of parent 1
instead of the spliced child. -/
theorem crossover_interior_fails_at_rule_len :
    0 < 27 ∧ 27 < 28 ∧
      (⟨List.replicate 28 's', none⟩ : RulesetState).ruleString.length = 28 ∧
      (⟨List.replicate 28 'f', none⟩ : RulesetState).ruleString.length = 28 ∧
      (crossoverAt 27 ⟨List.replicate 28 's', none⟩
          ⟨List.replicate 28 'f', none⟩).1.ruleString
        ≠ (List.replicate 28 's' : List Char).take 27
            ++ (List.replicate 28 'f' : List Char).drop 27 := by decide

/-- C5, amended: for parents of equal encoding length `L` and a crossover
point `p` strictly between `0` and `L` that is not the class constant
`RULE_LEN = 27`, crossover produces
`child1 = parent1[0:p] ++ parent2[p:]` and
`child2 = parent2[0:p] ++ parent1[p:]`, both of length `L`. -/
theorem crossover_interior_splice (s o : RulesetState) (p L : ℕ)
    (hs : s.ruleString.length = L) (ho : o.ruleString.length = L)
    (h0 : 0 < p) (hL : p < L) (hR : p ≠ RULE_LEN) :
    (crossoverAt p s o).1.ruleString
        = s.ruleString.take p ++ o.ruleString.drop p ∧
      (crossoverAt p s o).2.ruleString
        = o.ruleString.take p ++ s.ruleString.drop p ∧
      (crossoverAt p s o).1.ruleString.length = L ∧
      (crossoverAt p s o).2.ruleString.length = L := by
  have hcond : ¬(p = 0 ∨ p = RULE_LEN) := by
    push_neg
    exact ⟨by omega, hR⟩
  unfold crossoverAt
  rw [if_neg hcond]
  refine ⟨rfl, rfl, ?_, ?_⟩ <;>
    simp only [List.length_append, List.length_take, List.length_drop,
      List.length_cons, hs, ho] <;> omega

/-- C5, witness: the amended splice theorem on parents `"sss"`, `"fff"`
with `p = 1`. -/
theorem crossover_interior_splice_witness :
    (⟨['s', 's', 's'], none⟩ : RulesetState).ruleString.length = 3 ∧
      (crossoverAt 1 ⟨['s', 's', 's'], none⟩ ⟨['f', 'f', 'f'], none⟩).1.ruleString
        = (⟨['s', 's', 's'], none⟩ : RulesetState).ruleString.take 1
            ++ (⟨['f', 'f', 'f'], none⟩ : RulesetState).ruleString.drop 1 :=
  ⟨by decide, (crossover_interior_splice ⟨['s', 's', 's'], none⟩
    ⟨['f', 'f', 'f'], none⟩ 1 3 (by decide) (by decide) (by decide) (by decide)
    (by decide)).1⟩

/-- C6: when the crossover point is `0` or equals the common encoding
length `L`, crossover returns two children whose encodings equal the two
parents' encodings, in order. (At `p = 0`, and at `p = L` with
`L = RULE_LEN`, the degenerate copy branch fires; at `p = L ≠ RULE_LEN`
the splice branch still reproduces both parents because the tail slices
are empty.) -/
theorem crossover_edge_returns_parents (s o : RulesetState) (p L : ℕ)
    (hs : s.ruleString.length = L) (ho : o.ruleString.length = L)
    (hp : p = 0 ∨ p = L) :
    (crossoverAt p s o).1.ruleString = s.ruleString ∧
      (crossoverAt p s o).2.ruleString = o.ruleString := by
  unfold crossoverAt copyState
  rcases hp with rfl | rfl
  · rw [if_pos (Or.inl rfl)]
    exact ⟨rfl, rfl⟩
  · by_cases hc : p = 0 ∨ p = RULE_LEN
    · rw [if_pos hc]
      exact ⟨rfl, rfl⟩
    · rw [if_neg hc]
      have h1 : s.ruleString.take p = s.ruleString := by
        rw [← hs]; exact List.take_length _
      have h2 : o.ruleString.take p = o.ruleString := by
        rw [← ho]; exact List.take_length _
      have h3 : s.ruleString.drop p = [] := by
        rw [← hs]; exact List.drop_length _
      have h4 : o.ruleString.drop p = [] := by
        rw [← ho]; exact List.drop_length _
      simp [h1, h2, h3, h4]

/-- C6, witness: crossover of `"sf"` and `"lr"` at point `0`. -/
theorem crossover_edge_returns_parents_witness :
    (⟨['s', 'f'], none⟩ : RulesetState).ruleString.length = 2 ∧
      (crossoverAt 0 ⟨['s', 'f'], none⟩ ⟨['l', 'r'], none⟩).1.ruleString
          = (⟨['s', 'f'], none⟩ : RulesetState).ruleString ∧
        (crossoverAt 0 ⟨['s', 'f'], none⟩ ⟨['l', 'r'], none⟩).2.ruleString
          = (⟨['l', 'r'], none⟩ : RulesetState).ruleString :=
  ⟨by decide, crossover_edge_returns_parents ⟨['s', 'f'], none⟩ ⟨['l', 'r'], none⟩
    0 2 (by decide) (by decide) (Or.inl rfl)⟩

/-- C3, counterexample: on the zero-total fitness list `[0, 0, 0]` (draw
`1/2`), `rouletteSelect` silently returns index `0` — there is no error
path for a degenerate population in the source. -/
theorem rouletteSelect_zero_total_returns_index :
    ([0, 0, 0] : List ℚ).sum = 0 ∧
      rouletteSelect (1 / 2) [0, 0, 0] = some 0 := by
  refine ⟨by norm_num, ?_⟩
  unfold rouletteSelect rouletteLoop
  norm_num

/-- C3, amended: for every nonempty fitness list of non-negative values
with zero total, and any draw, `rouletteSelect` silently returns index `0`
(the scaled pick is `0` and the first running sum already reaches it);
no error condition is raised. -/
theorem rouletteSelect_zero_total_silent_index_zero (r : ℚ) (l : List ℚ)
    (hne : l ≠ []) (hpos : ∀ x ∈ l, 0 ≤ x) (hsum : l.sum = 0) :
    rouletteSelect r l = some 0 := by
  cases l with
  | nil => exact absurd rfl hne
  | cons v rest =>
      have hv : (0 : ℚ) ≤ v := hpos v (by simp)
      unfold rouletteSelect rouletteLoop
      rw [hsum, mul_zero]
      rw [if_pos (by simpa using hv)]

/-- C3, witness: the amended theorem on the list `[0, 0]` with draw `1/3`. -/
theorem rouletteSelect_zero_total_silent_index_zero_witness :
    ([0, 0] : List ℚ) ≠ [] ∧ ([0, 0] : List ℚ).sum = 0 ∧
      rouletteSelect (1 / 3) [0, 0] = some 0 :=
  ⟨by simp, by norm_num, rouletteSelect_zero_total_silent_index_zero (1 / 3)
    [0, 0] (by simp) (by norm_num) (by norm_num)⟩

/-- C10: for `n ≥ 1`, `getRandomStates(n)` returns the single state that
was generated last among the `n` random states it builds (the loop
variable `newState`, not the accumulated list `newStates`). -/
theorem getRandomStates_returns_last_single (ns : ℕ → ℕ) (idx n : ℕ)
    (h : 1 ≤ n) :
    getRandomStates ns idx n
      = some ⟨randomRuleset ns (idx + RULE_LEN * (n - 1)), none⟩ := by
  obtain ⟨m, rfl⟩ : ∃ m, n = m + 1 := ⟨n - 1, by omega⟩
  unfold getRandomStates
  rw [List.range_succ, List.map_append]
  simp [List.getLast?_concat]

/-- C10, witness: `getRandomStates` with `n = 2` on the all-zeros supply
returns the second generated state. -/
theorem getRandomStates_returns_last_single_witness :
    1 ≤ 2 ∧ getRandomStates zeroSupply 0 2
      = some ⟨randomRuleset zeroSupply (0 + RULE_LEN * (2 - 1)), none⟩ :=
  ⟨by decide, getRandomStates_returns_last_single zeroSupply 0 2 (by decide)⟩

theorem gaInitLoop_spec (ns : ℕ → ℕ) :
    ∀ (n idx : ℕ) (gen : RulesetState), 1 ≤ n →
      (gaInitLoop ns idx gen n).2.1.ruleString
          = randomRuleset ns (idx + RULE_LEN * (n - 1)) ∧
        (gaInitLoop ns idx gen n).2.1.stateValue = gen.stateValue ∧
        (gaInitLoop ns idx gen n).1.length = n ∧
        (gaInitLoop ns idx gen n).1[0]? = some (copyState gen) := by
  intro n
  induction n with
  | zero => intro idx gen h; omega
  | succ m ih =>
      intro idx gen _
      rcases Nat.eq_zero_or_pos m with rfl | hm
      · simp [gaInitLoop]
      · obtain ⟨k, rfl⟩ : ∃ k, m = k + 1 := ⟨m - 1, by omega⟩
        have hrec := ih (idx + RULE_LEN)
          { gen with ruleString := randomRuleset ns idx } hm
        refine ⟨?_, ?_, ?_, ?_⟩
        · rw [show (gaInitLoop ns idx gen (k + 1 + 1)).2.1
              = (gaInitLoop ns (idx + RULE_LEN)
                  { gen with ruleString := randomRuleset ns idx } (k + 1)).2.1
              from rfl]
          rw [hrec.1]
          congr 1
          simp only [Nat.add_sub_cancel]
          ring
        · exact hrec.2.1
        · simpa [gaInitLoop] using hrec.2.2.1
        · simp [gaInitLoop]

theorem gaInit_spec (ns : ℕ → ℕ) (idx : ℕ) (gen : RulesetState)
    (popSize mg : ℕ) (cp mp mv : ℚ) (h : 1 ≤ popSize) :
    ∃ ga gen' idx',
      gaInit ns idx gen popSize mg cp mp mv = some (ga, gen', idx') ∧
        gen'.ruleString = randomRuleset ns (idx + RULE_LEN *
          ((if popSize % 2 = 1 then popSize + 1 else popSize) - 1)) ∧
        gen'.stateValue = gen.stateValue ∧
        ga.currStates[0]? = some (copyState gen) := by
  have hps : 1 ≤ (if popSize % 2 = 1 then popSize + 1 else popSize) := by
    split <;> omega
  unfold gaInit
  dsimp only
  revert hps
  generalize (if popSize % 2 = 1 then popSize + 1 else popSize) = q
  intro hps
  have hspec := gaInitLoop_spec ns q idx gen hps
  cases hl : (gaInitLoop ns idx gen q).1 with
  | nil =>
      exfalso
      have hlen := hspec.2.2.1
      rw [hl] at hlen
      simp at hlen
      omega
  | cons a t =>
      rw [hl] at hspec
      exact ⟨_, _, _, rfl, hspec.1, hspec.2.1, hspec.2.2.2⟩

/-- C4, counterexample: constructing a `GASearcher` from the prototype
state with encoding `"s"` (and cached fitness 7) overwrites the
prototype's encoding in place — after construction it no longer equals
`"s"` (while the stale cache is kept), violating state immutability during
genetic-algorithm construction. -/
theorem gaInit_mutates_prototype_encoding :
    (gaInit oneSupply 0 ⟨['s'], some 7⟩ 2 20 0 0 5).isSome = true ∧
      (gaInit oneSupply 0 ⟨['s'], some 7⟩ 2 20 0 0 5).map
          (fun r => r.2.1.ruleString)
        ≠ some (⟨['s'], some 7⟩ : RulesetState).ruleString := by decide

/-- C4, amended: mutation, crossover and neighbor generation all build
fresh state instances (their outputs carry an empty fitness cache, and, as
pure functions of their parents, leave the parents' encodings and caches
unchanged); hill-climbing steps only replace the driver's current state
with such fresh states. But `GASearcher` construction mutates the shared
prototype in place: after seeding a population the prototype's encoding
equals the last freshly generated random ruleset — not its original
encoding — while its cached fitness is left stale, and the first
population member is a copy of the original prototype. -/
theorem state_ops_fresh_but_gaInit_mutates_prototype
    (ns : ℕ → ℕ) (idx : ℕ) (gen : RulesetState) (popSize mg : ℕ)
    (cp mp mv : ℚ) (h : 1 ≤ popSize) :
    (∃ ga gen' idx',
      gaInit ns idx gen popSize mg cp mp mv = some (ga, gen', idx') ∧
        gen'.ruleString = randomRuleset ns (idx + RULE_LEN *
          ((if popSize % 2 = 1 then popSize + 1 else popSize) - 1)) ∧
        gen'.stateValue = gen.stateValue ∧
        ga.currStates[0]? = some (copyState gen)) ∧
      (∀ r1 r2 s t, makeRandomMoveR r1 r2 s = some t → t.stateValue = none) ∧
      (∀ p s o, (crossoverAt p s o).1.stateValue = none ∧
        (crossoverAt p s o).2.stateValue = none) ∧
      (∀ s, ∀ t ∈ allNeighbors s, t.stateValue = none) := by
  refine ⟨gaInit_spec ns idx gen popSize mg cp mp mv h, ?_, ?_, ?_⟩
  · intro r1 r2 s t ht
    unfold makeRandomMoveR at ht
    split at ht
    · exact absurd ht (by simp)
    · dsimp only at ht
      split at ht
      · exact absurd ht (by simp)
      · split at ht
        · exact absurd ht (by simp)
        · exact (Option.some.inj ht) ▸ rfl
  · intro p s o
    unfold crossoverAt copyState
    split <;> exact ⟨rfl, rfl⟩
  · intro s t ht
    simp only [allNeighbors, List.mem_map] at ht
    obtain ⟨r, -, rfl⟩ := ht
    rfl

/-- C4, witness: the amended theorem on a one-state population request
(rounded up to two) from the prototype `"s"`. -/
theorem state_ops_fresh_but_gaInit_mutates_prototype_witness :
    1 ≤ 1 ∧ ∃ ga gen' idx',
      gaInit zeroSupply 0 ⟨['s'], none⟩ 1 20 0 0 5 = some (ga, gen', idx') ∧
        gen'.stateValue = (⟨['s'], none⟩ : RulesetState).stateValue := by
  obtain ⟨⟨ga, gen', idx', h1, -, h3, -⟩, -, -, -⟩ :=
    state_ops_fresh_but_gaInit_mutates_prototype zeroSupply 0 ⟨['s'], none⟩
      1 20 0 0 5 (by decide)
  exact ⟨by decide, ga, gen', idx', h1, h3⟩

/-- C1: evaluation of `HillClimber.step` at a failing input for the
claimed status rule. The hill climber starts at `"s"` with value 5 and
known maximum 10; all eight sampled neighbors are `"a"` with value 3.
The claim (and the source's own `local maxima` comment and `run`
docstring) calls for status `'local maxima'`, since `3 < 5` and `3 ≠ 10`;
but because the source assigns `self.currValue = nextValue` before
testing `nextValue >= self.currValue`, that test compares `3 ≥ 3` and the
step reports `'keep going'` — the inferior move having been taken. The
`local maxima` branch is unreachable. -/
theorem hillclimber_step_keepGoing_on_worse_neighbor :
    (hillClimberInit c1Eval 10 ⟨['s'], none⟩ 500).currValue = 5 ∧
      stepR c1Eval zeroSupply 0 (hillClimberInit c1Eval 10 ⟨['s'], none⟩ 500)
        = some (Status.keepGoing, ⟨⟨['a'], some 3⟩, 3, 10, 1, 500⟩, 17) := by
  constructor
  · with_unfolding_all rfl
  · with_unfolding_all rfl

/-- C9, counterexample: a population whose single member has fitness
`maxFit = 5`, but whose generation count (1) exceeds `maxGenerations` (0):
`step()` returns `'local maxima'` from its count guard instead of the
claimed `'optimal'`, and does not record the optimal member as best. -/
theorem gaStep_ignores_optimal_member_past_cap :
    (getValue c1Eval ⟨['s'], none⟩).1 = gaPastCap.maxFit ∧
      gaStepR c1Eval qZeroSupply zeroSupply 0 0 gaPastCap
        = some (Status.localMaxima, gaPastCap, 0, 0) := by
  constructor
  · with_unfolding_all rfl
  · with_unfolding_all rfl

theorem getValue_ruleString (eval : List Char → ℚ) (s : RulesetState) :
    (getValue eval s).2.ruleString = s.ruleString := by
  rcases s with ⟨l, sv⟩
  cases sv <;> rfl

theorem getValue_idem (eval : List Char → ℚ) (s : RulesetState) :
    (getValue eval ((getValue eval s).2)).1 = (getValue eval s).1 := by
  rcases s with ⟨l, sv⟩
  cases sv <;> rfl

/-- C9, amended: on any call to `GASearcher.step` whose generation count
has not yet passed `maxGenerations`, if some population member's fitness
equals `maxFit`, the step returns status `'optimal'`, records the first
such member as `best`, leaves the population's encodings and the
generation count unchanged, and consumes no randomness (no selection,
crossover or mutation happens). -/
theorem gaStep_optimal_detection (eval : List Char → ℚ) (qs : ℕ → ℚ)
    (ns : ℕ → ℕ) (qi ni : ℕ) (ga : GA)
    (hne : ga.currStates ≠ [])
    (hcap : ga.count ≤ ga.maxGenerations)
    (hopt : ga.maxFit ∈ ga.currStates.map fun s => (getValue eval s).1) :
    ∃ ga', gaStepR eval qs ns qi ni ga = some (Status.optimal, ga', qi, ni) ∧
      ga'.currStates.map RulesetState.ruleString
          = ga.currStates.map RulesetState.ruleString ∧
      ga'.count = ga.count ∧
      ∃ b, ga'.best = some b ∧ (getValue eval b).1 = ga.maxFit ∧
        b.ruleString ∈ ga.currStates.map RulesetState.ruleString := by
  obtain ⟨ob, obRest, hcs⟩ := List.exists_cons_of_ne_nil hne
  have hmaps : (ga.currStates.map RulesetState.ruleString)
      = ((ga.currStates.map fun s => (getValue eval s).2).map
          RulesetState.ruleString) := by
    rw [List.map_map]
    exact (List.map_congr_left fun s _ => (getValue_ruleString eval s).symm)
  have hpos : (ga.currStates.map fun s => (getValue eval s).1).indexOf ga.maxFit
      < (ga.currStates.map fun s => (getValue eval s).1).length :=
    List.indexOf_lt_length.mpr hopt
  have hposcs : (ga.currStates.map fun s => (getValue eval s).1).indexOf ga.maxFit
      < ga.currStates.length := by simpa using hpos
  have hposmemo : (ga.currStates.map fun s => (getValue eval s).1).indexOf ga.maxFit
      < (ga.currStates.map fun s => (getValue eval s).2).length := by
    simpa using hpos
  unfold gaStepR
  rw [hcs]
  dsimp only
  rw [if_neg (by omega)]
  rw [← hcs]
  rw [if_pos (by exact hopt)]
  rw [List.getElem?_eq_getElem hposmemo]
  dsimp only
  refine ⟨_, rfl, hmaps.symm, rfl, _, rfl, ?_, ?_⟩
  · rw [List.getElem_map]
    rw [getValue_idem]
    have := List.getElem_indexOf hpos
    rw [List.getElem_map] at this
    exact this
  · rw [List.getElem_map, getValue_ruleString]
    exact List.mem_map_of_mem _ (List.getElem_mem hposcs)

/-- C9, witness: the amended theorem on a fresh one-member population
whose member scores `maxFit = 5` under `c1Eval`. -/
theorem gaStep_optimal_detection_witness :
    gaOpt.currStates ≠ [] ∧ gaOpt.count ≤ gaOpt.maxGenerations ∧
      (gaOpt.maxFit ∈ gaOpt.currStates.map fun s => (getValue c1Eval s).1) ∧
      ∃ ga', gaStepR c1Eval qZeroSupply zeroSupply 3 4 gaOpt
          = some (Status.optimal, ga', 3, 4) := by
  have hopt : gaOpt.maxFit ∈ gaOpt.currStates.map fun s => (getValue c1Eval s).1 := by
    simp [gaOpt, getValue, c1Eval]
  obtain ⟨ga', h1, -⟩ := gaStep_optimal_detection c1Eval qZeroSupply zeroSupply
    3 4 gaOpt (by simp [gaOpt]) (by simp [gaOpt]) hopt
  exact ⟨by simp [gaOpt], by simp [gaOpt], hopt, ga', h1⟩

theorem WF_getValue (eval : List Char → ℚ) {s : RulesetState} (h : WF s) :
    WF ((getValue eval s).2) := by
  have hr := getValue_ruleString eval s
  exact ⟨by rw [hr]; exact h.1, by rw [hr]; exact h.2⟩

theorem makeRandomMove_wf (r1 r2 : ℕ) {s : RulesetState} (h : WF s) :
    ∃ t, makeRandomMoveR r1 r2 s = some t ∧ WF t := by
  obtain ⟨t, h1, h2, -, h4, -⟩ := makeRandomMove_spec r1 r2 s h.1 h.2
  exact ⟨t, h1, ⟨by rw [h2]; exact h.1, h4⟩⟩

theorem randomNeighbors_wf (ns : ℕ → ℕ) {s : RulesetState} (h : WF s) :
    ∀ (n idx : ℕ), ∃ ts idx', randomNeighborsR ns s idx n = some (ts, idx') ∧
      ts.length = n ∧ ∀ t ∈ ts, WF t := by
  intro n
  induction n with
  | zero => intro idx; exact ⟨[], idx, rfl, rfl, by simp⟩
  | succ m ih =>
      intro idx
      obtain ⟨t, ht, hwf⟩ := makeRandomMove_wf (ns idx) (ns (idx + 1)) h
      obtain ⟨ts, idx', hrec, hlen, hall⟩ := ih (idx + 2)
      refine ⟨t :: ts, idx', ?_, by simp [hlen], ?_⟩
      · unfold randomNeighborsR
        rw [ht]
        dsimp only
        rw [hrec]
      · intro x hx
        rcases List.mem_cons.mp hx with rfl | hx
        · exact hwf
        · exact hall x hx

theorem fbnLoop_spec (eval : List Char → ℚ) :
    ∀ (rest bestNeighs : List RulesetState) (bestValue : ℚ),
      bestNeighs ≠ [] → (∀ b ∈ bestNeighs, WF b) → (∀ nb ∈ rest, WF nb) →
      (fbnLoop eval bestNeighs bestValue rest).1 ≠ [] ∧
        ∀ b ∈ (fbnLoop eval bestNeighs bestValue rest).1, WF b := by
  intro rest
  induction rest with
  | nil => intro bn bv h1 h2 _; exact ⟨h1, h2⟩
  | cons nb rest ih =>
      intro bn bv h1 h2 h3
      have hnbwf : WF ((getValue eval nb).2) :=
        WF_getValue eval (h3 nb (List.mem_cons_self _ _))
      have h3' : ∀ x ∈ rest, WF x := fun x hx => h3 x (List.mem_cons_of_mem _ hx)
      unfold fbnLoop
      dsimp only
      split
      · exact ih [(getValue eval nb).2] (getValue eval nb).1 (by simp)
          (by intro b hb; rw [List.mem_singleton] at hb; exact hb ▸ hnbwf) h3'
      · split
        · refine ih (bn ++ [(getValue eval nb).2]) bv (by simp) ?_ h3'
          intro b hb
          rcases List.mem_append.mp hb with hb | hb
          · exact h2 b hb
          · rw [List.mem_singleton] at hb; exact hb ▸ hnbwf
        · exact ih bn bv h1 h2 h3'

theorem findBestNeighbor_spec (eval : List Char → ℚ) (tie : ℕ)
    {neighbors : List RulesetState} (hne : neighbors ≠ [])
    (hwf : ∀ nb ∈ neighbors, WF nb) :
    ∃ t, findBestNeighborR eval tie neighbors = some t ∧ WF t := by
  obtain ⟨n0, rest, rfl⟩ := List.exists_cons_of_ne_nil hne
  have h := fbnLoop_spec eval rest [(getValue eval n0).2] (getValue eval n0).1
    (by simp)
    (by intro b hb; rw [List.mem_singleton] at hb
        exact hb ▸ WF_getValue eval (hwf n0 (List.mem_cons_self _ _)))
    (fun nb hnb => hwf nb (List.mem_cons_of_mem _ hnb))
  have hlen : 0 < (fbnLoop eval [(getValue eval n0).2]
      (getValue eval n0).1 rest).1.length := List.length_pos.mpr h.1
  have hidx : tie % (fbnLoop eval [(getValue eval n0).2]
        (getValue eval n0).1 rest).1.length
      < (fbnLoop eval [(getValue eval n0).2]
        (getValue eval n0).1 rest).1.length := Nat.mod_lt _ hlen
  exact ⟨_, List.getElem?_eq_getElem hidx, h.2 _ (List.getElem_mem hidx)⟩

theorem stepR_spec (eval : List Char → ℚ) (ns : ℕ → ℕ) (idx : ℕ) (hc : HC)
    (h : WF hc.currState) :
    ∃ status hc' idx', stepR eval ns idx hc = some (status, hc', idx') ∧
      WF hc'.currState ∧ hc'.count = hc.count + 1 ∧
      hc'.maxRounds = hc.maxRounds ∧ hc'.maxValue = hc.maxValue := by
  obtain ⟨ts, idx', h1, hlen, hall⟩ := randomNeighbors_wf ns h 8 idx
  have hne : ts ≠ [] := by
    intro hemp
    rw [hemp] at hlen
    simp at hlen
  obtain ⟨t, h2, hwf⟩ := findBestNeighbor_spec eval (ns idx') hne hall
  unfold stepR
  rw [h1]
  dsimp only
  rw [h2]
  dsimp only
  split
  · exact ⟨_, _, _, rfl, WF_getValue eval hwf, rfl, rfl, rfl⟩
  · split
    · exact ⟨_, _, _, rfl, WF_getValue eval hwf, rfl, rfl, rfl⟩
    · exact ⟨_, _, _, rfl, WF_getValue eval hwf, rfl, rfl, rfl⟩

theorem runAux_spec (eval : List Char → ℚ) (ns : ℕ → ℕ) :
    ∀ (fuel idx : ℕ) (hc : HC), WF hc.currState →
      ∃ hc' idx', runAux eval ns fuel idx hc = some (hc', idx') ∧
        hc'.count ≤ max hc.count hc.maxRounds := by
  intro fuel
  induction fuel with
  | zero => intro idx hc _; exact ⟨hc, idx, rfl, le_max_left _ _⟩
  | succ m ih =>
      intro idx hc h
      obtain ⟨status, hc1, idx1, h1, hwf1, hcount, hmr, -⟩ :=
        stepR_spec eval ns idx hc h
      unfold runAux
      split
      case isTrue hguard =>
        rw [h1]
        dsimp only
        split
        · refine ⟨hc1, idx1, rfl, ?_⟩
          rw [hcount]
          exact le_trans (by omega) (le_max_right _ _)
        · obtain ⟨hc2, idx2, h2, hb⟩ := ih idx1 hc1 hwf1
          refine ⟨hc2, idx2, h2, ?_⟩
          rw [hcount, hmr] at hb
          have hcap : hc.count + 1 ≤ hc.maxRounds := hguard.2
          refine le_trans hb (le_trans (le_of_eq ?_) (le_max_right _ _))
          omega
      case isFalse =>
        exact ⟨hc, idx, rfl, le_max_left _ _⟩

/-- C8: for every well-formed start state (nonempty encoding over the
known symbols) and every positive round cap `R`, `HillClimber.run()`
terminates with a result `(finalValue, maxValue, rounds)` whose reported
round count — the number of `step()` calls made, each of which increments
the counter once from its initial 0 — is at most `R`. -/
theorem hillclimber_run_round_cap (eval : List Char → ℚ) (ns : ℕ → ℕ)
    (idx : ℕ) (maxV : ℚ) (start : RulesetState) (R : ℕ) (_hR : 0 < R)
    (hwf : WF start) :
    ∃ v m n, runR eval ns idx (hillClimberInit eval maxV start R)
      = some (v, m, n) ∧ n ≤ R := by
  have hwf' : WF (hillClimberInit eval maxV start R).currState :=
    WF_getValue eval hwf
  obtain ⟨hc', idx', h1, hb⟩ := runAux_spec eval ns (R - 0) idx
    (hillClimberInit eval maxV start R) hwf'
  refine ⟨hc'.currValue, hc'.maxValue, hc'.count, ?_, ?_⟩
  · unfold runR
    rw [show (hillClimberInit eval maxV start R).maxRounds
        - (hillClimberInit eval maxV start R).count = R - 0 from rfl]
    rw [h1]
  · have h0 : (hillClimberInit eval maxV start R).count = 0 := rfl
    have hRr : (hillClimberInit eval maxV start R).maxRounds = R := rfl
    rw [h0, hRr] at hb
    simpa using hb

/-- C8, witness: the round-cap theorem on a trivial run (`maxValue` 0 is
already reached, cap `R = 1`), reporting 0 rounds. -/
theorem hillclimber_run_round_cap_witness :
    0 < 1 ∧ WF ⟨['s'], none⟩ ∧
      ∃ v m n, runR zeroEval zeroSupply 0
        (hillClimberInit zeroEval 0 ⟨['s'], none⟩ 1) = some (v, m, n) ∧ n ≤ 1 :=
  ⟨by decide, by decide, hillclimber_run_round_cap zeroEval zeroSupply 0 0
    ⟨['s'], none⟩ 1 (by decide) (by decide)⟩

end LocalSearchSolver
